import Mathlib

/-!
Verification of the RSS ingestion / relevance-filtering / snippet-highlighting
core of the Agentic Insight Tracker repository.

The shallow embedding below translates:
 * the frontend highlighting and truncation logic of ModernInsightCard
   (src/unnamed/part_009): cleanText pipeline is out of scope, the embedded
   functions are truncateAtSentence and highlightText together with the
   JavaScript regex replace semantics they rely on;
 * the search-bar filter submission handler (src/unnamed/part_007 and
   src/unnamed/part_008, identical logic);
 * the source configuration list of backend/app/core/sources.json
   (src/unnamed/part_001);
 * the backend Relevance Scorer, mentioned-tool detection and the
   Deduplicator / Upsert Gate, whose Python sources (backend/app/core) are
   not present in the repository snapshot; those are modelled from the spec
   and are marked as such in their doc comments.

Machine-level conventions: JavaScript strings are modelled as Lean String
values viewed through their character list (all inputs of interest are
ASCII, where the UTF-16 view and the character view agree); the JavaScript
float comparison `lastPunctuation > maxLength * 0.7` is modelled by the
exact rational comparison `10 * lastPunctuation > 7 * maxLength`, which
agrees with the float computation at the only budget the component uses
(200).
-/

/-- Lowercasing as used by JS `toLowerCase()` and by keyword matching:
per-character lowering of the underlying character list. -/
def lowerStr (s : String) : String := String.mk (s.data.map Char.toLower)

/-- JS `\w` word-character class: letters, digits and underscore. -/
def isWordChar (c : Char) : Bool := c.isAlphanum || c == ('_')

/-- Word-character test lifted to an optional character; a missing character
(before the start or after the end of the text) counts as a non-word
character, exactly as JS `\b` treats the string edges. -/
def wordFor : Option Char → Bool
  | none => false
  | some c => isWordChar c

/-- Case-insensitive prefix test: the text side is lowered character by
character and compared with an (already lowercase) keyword. -/
def startsWithCI : List Char → List Char → Bool
  | _, [] => true
  | [], _ :: _ => false
  | c :: cs, k :: ks => (c.toLower == k) && startsWithCI cs ks

/-- Whether the regex `\b(kw)\b` (case-insensitive) matches at the current
scan position: `prev` is the text character immediately before the position,
`s` the rest of the text.  `\b` holds at a position iff exactly one of the
two surrounding text characters is a word character. -/
def canMatch (kw : List Char) (prev : Option Char) (s : List Char) : Bool :=
  !kw.isEmpty && startsWithCI s kw
    && (wordFor prev != wordFor s.head?)
    && (wordFor ((s.take kw.length).getLast?) != wordFor ((s.drop kw.length).head?))

/-- Opening highlight marker inserted by highlightText (part_009 line 99). -/
def markOpen : List Char := ("<strong class=\"bg-yellow-200 px-1 rounded\">").data

/-- Closing highlight marker inserted by highlightText (part_009 line 99). -/
def markClose : List Char := ("</strong>").data

/-- One left-to-right pass of `highlightedText.replace(regex, ...)` with a
global case-insensitive word-boundary regex: scan the text, and at each
position either wrap a boundary match of `kw` in the markers and continue
after the matched characters, or copy one character.  The `fuel` argument
equals the input length at the top-level call and only makes the recursion
structural; every step consumes at least one input character, so the fuel is
never exhausted while input remains. -/
def highlightLoop (kw : List Char) : Nat → Option Char → List Char → List Char
  | 0, _, rest => rest
  | _ + 1, _, [] => []
  | fuel + 1, prev, c :: cs =>
    if canMatch kw prev (c :: cs) then
      markOpen ++ (c :: cs).take kw.length ++ markClose ++
        highlightLoop kw fuel ((c :: cs).take kw.length).getLast? (cs.drop (kw.length - 1))
    else
      c :: highlightLoop kw fuel (some c) cs

/-- Replace every word-boundary occurrence of `kw` in `s` with the marked
version, as one JS `String.replace` call with a `gi` regex does. -/
def highlightOne (kw : List Char) (s : List Char) : List Char :=
  highlightLoop kw s.length none s

/-- Whether `\b(kw)\b` (case-insensitive) matches anywhere in the remaining
text, given the character just before it. -/
def wordOccursAux (kw : List Char) : Option Char → List Char → Bool
  | _, [] => false
  | prev, c :: cs => canMatch kw prev (c :: cs) || wordOccursAux kw (some c) cs

/-- Whether `tool` occurs in `text` as a whole word (case-insensitive,
word-boundary matching on both sides). -/
def wordOccurs (tool text : String) : Bool :=
  wordOccursAux ((lowerStr tool).data) none text.data

/-- Maximal runs of non-whitespace characters; `acc` holds the reversed
current run.  Used to model `query.split(/\s+/)`: the JS split can also
produce empty-string entries at the edges, which the length filter of the
caller removes, so the filtered keyword lists coincide. -/
def wsChunksAux : List Char → List Char → List (List Char)
  | acc, [] => if acc.isEmpty then [] else [acc.reverse]
  | acc, c :: cs =>
    if c.isWhitespace then
      if acc.isEmpty then wsChunksAux [] cs
      else acc.reverse :: wsChunksAux [] cs
    else wsChunksAux (c :: acc) cs

/-- Whitespace-separated tokens of a character list. -/
def wsChunks (s : List Char) : List (List Char) := wsChunksAux [] s

/-- Retained search tokens of highlightText (part_009 line 92): lowercase the
query, split on whitespace, keep only tokens longer than two characters. -/
def queryKeywords (query : String) : List (List Char) :=
  (wsChunks (lowerStr query).data).filter (fun k => decide (2 < k.length))

/-- highlightText of ModernInsightCard (part_009 lines 88-103): return the
text unchanged when the query or the text is empty, otherwise fold the
word-boundary replacement over the retained tokens in query order; each
token is replaced inside the text produced by the previous replacements. -/
def highlightText (text query : String) : String :=
  if query = ("") ∨ text = ("") then text
  else String.mk ((queryKeywords query).foldl (fun acc k => highlightOne k acc) text.data)

/-- JS `String.prototype.lastIndexOf(pat)` searching start positions below
`n`: the greatest `i < n` at which `pat` is a prefix of `s.drop i`. -/
def lastMatchBelow (s pat : List Char) : Nat → Option Nat
  | 0 => none
  | n + 1 => if pat.isPrefixOf (s.drop n) then some n else lastMatchBelow s pat n

/-- JS `s.lastIndexOf(pat)` restricted to its found/not-found content. -/
def jsLastIndexOf (s pat : List Char) : Option Nat := lastMatchBelow s pat s.length

/-- The `-1` sentinel convention of JS `lastIndexOf`. -/
def optToIdx : Option Nat → Int
  | none => -1
  | some i => (i : Int)

/-- `Math.max(lastSentence, lastQuestion, lastExclamation)` of part_009
lines 69-73: index of the last sentence boundary inside the truncated text,
or -1 when there is none. -/
def lastPunct (truncated : List Char) : Int :=
  max (max (optToIdx (jsLastIndexOf truncated ((". ").data)))
        (optToIdx (jsLastIndexOf truncated (("? ").data))))
    (optToIdx (jsLastIndexOf truncated (("! ").data)))

/-- truncateAtSentence of ModernInsightCard (part_009 lines 65-80).  The JS
float threshold `maxLength * 0.7` is modelled by the exact comparison
`10 * lastPunct > 7 * maxLength`; at the only call-site budget (200) the
float product evaluates to exactly 140 and the two comparisons agree. -/
def truncateAtSentence (text : String) (maxLength : Nat) : String :=
  if text.data.length ≤ maxLength then text
  else if 10 * lastPunct (text.data.take maxLength) > 7 * (maxLength : Int) then
    String.mk ((text.data.take maxLength).take ((lastPunct (text.data.take maxLength)).toNat + 1))
  else
    String.mk (text.data.take maxLength ++ ("...").data)

/-- Whether one of the three sentence-boundary patterns of
truncateAtSentence starts at position `i` of `s`. -/
def boundAt (s : List Char) (i : Nat) : Bool :=
  ((". ").data).isPrefixOf (s.drop i)
    || (("? ").data).isPrefixOf (s.drop i)
    || (("! ").data).isPrefixOf (s.drop i)

/-- Contiguous-substring test on character lists: whether `pat` occurs as a
prefix of some suffix of the scanned list. -/
def hasSub (pat : List Char) : List Char → Bool
  | [] => pat.isEmpty
  | c :: cs => pat.isPrefixOf (c :: cs) || hasSub pat cs

/-- Modelled from the spec: the Relevance Scorer of backend/app/core is not
part of the repository snapshot; per spec section 4.3, a keyword matches an
entry when it occurs as a case-insensitive substring of the concatenation of
title and content. -/
def occursCI (kw text : String) : Bool :=
  hasSub ((lowerStr kw).data) ((lowerStr text).data)

/-- Result of the Relevance Scorer, per spec section 4.3. -/
structure ScoreResult where
  relevant : Bool
  matchedKeywords : List String
deriving DecidableEq

/-- Modelled from the spec: `score` of the missing backend Relevance Scorer
(spec section 4.3).  The keyword set of an entry is the union of the
per-source keywords and the global keywords; `relevant` is true iff at least
one keyword matches, and `matchedKeywords` records every keyword that
matches, not just the first. -/
def score (title content : String) (relevance_keywords globalKeywords : List String) :
    ScoreResult :=
  { relevant :=
      (relevance_keywords ++ globalKeywords).any (fun kw => occursCI kw (title ++ content)),
    matchedKeywords :=
      (relevance_keywords ++ globalKeywords).filter (fun kw => occursCI kw (title ++ content)) }

/-- Curated tool-name vocabulary of the mentioned-tool pass (spec section
4.3; the same five names appear as quick tool filters in part_007). -/
def curatedTools : List String := [("Amp"), ("Cursor"), ("Claude"), ("Copilot"), ("Cody")]

/-- Modelled from the spec: mentioned-tool detection of the missing backend
core (spec section 4.3): a tool is detected only when it occurs as a whole
word, with word-boundary matching, case-insensitively. -/
def mentionedTools (text : String) (tools : List String) : List String :=
  tools.filter (fun t => wordOccurs t text)

/-- Modelled from the spec: the candidate record the Deduplicator inspects
(spec section 4.4); only the fields relevant to the `(source, canonical
link)` uniqueness check are kept, the link being already canonicalized. -/
structure Candidate where
  source : String
  link : String
  title : String
deriving DecidableEq

/-- Deduplication key of a candidate: `(source, canonical_link)`. -/
def keyOf (c : Candidate) : String × String := (c.source, c.link)

/-- Modelled from the spec: the `(source, link) -> bool` existence lookup the
Deduplicator consults (spec section 4.4). -/
def hasKey (store : List Candidate) (k : String × String) : Bool :=
  store.any (fun i => decide (keyOf i = k))

/-- Modelled from the spec: `shouldInsert` of the Deduplicator / Upsert Gate
(spec section 4.4): insert exactly when the key is not present. -/
def shouldInsert (store : List Candidate) (c : Candidate) : Bool :=
  !hasKey store (keyOf c)

/-- Modelled from the spec: processing of one candidate by the ingestion
pipeline: a candidate whose key already exists is discarded (not updated),
otherwise it is appended to the store. -/
def ingestEntry (store : List Candidate) (c : Candidate) : List Candidate :=
  if shouldInsert store c then store ++ [c] else store

/-- Modelled from the spec: one ingestion cycle over a raw feed, processing
entries in feed order. -/
def ingestFeed (store : List Candidate) (entries : List Candidate) : List Candidate :=
  entries.foldl ingestEntry store

/-- Global keyword list of backend/app/core/sources.json
(src/unnamed/part_001 lines 50-55). -/
def global_keywords : List String :=
  [("sourcegraph"), ("cody"), ("amp"), ("code graph"), ("cursor"), ("claude"), ("anthropic"),
   ("windsurf"), ("codeium"), ("copilot"), ("codex"), ("grok"), ("amazon q"), ("continue.dev"),
   ("agentic coding agent"), ("ai code assistant"), ("autonomous code agent"),
   ("mcp"), ("model context protocol"), ("agentic developer tools")]

/-- Name and enabled flag of every entry of the `sources` array of
backend/app/core/sources.json (src/unnamed/part_001 lines 56-598), in file
order. -/
def sourcesConfig : List (String × Bool) :=
  [(("hackernews"), true),
   (("reddit_machinelearning"), false),
   (("dev_to"), true),
   (("product_hunt"), false),
   (("anthropic"), false),
   (("openai"), true),
   (("sourcegraph"), true),
   (("techcrunch"), true),
   (("github_blog"), true),
   (("aws_news"), true),
   (("google_ai"), false),
   (("vercel_blog"), false),
   (("stack_overflow"), true),
   (("microsoft_devblogs"), true),
   (("the_verge_ai"), false),
   (("ycombinator"), true),
   (("venturebeat_ai"), true),
   (("wired_tech"), true),
   (("the_register"), true),
   (("reddit_machinelearning"), true),
   (("reddit_programming"), true),
   (("reddit_localllama"), true),
   (("dev_to_ai"), true),
   (("dev_to_agents"), true),
   (("dev_to_developers"), true),
   (("medium_ai_agents"), true),
   (("medium_code_search"), true),
   (("medium_developer_tools"), true),
   (("product_hunt_ai_tools"), true),
   (("nitter_ai_coding"), false),
   (("arxiv_ai_coding"), true)]

/-- Insight list filters of the frontend
(src/sourcegraph_tool/frontend/src/types/index.ts, InsightFilters). -/
structure InsightFilters where
  tool : Option String := none
  sources : Option (List String) := none
  mentioned_tools : Option (List String) := none
  matched_keywords : Option (List String) := none
  dateRange : Option (String × String) := none
  fromHours : Option Nat := none
  keyword : Option String := none
  q : Option String := none
  tags : Option (List String) := none
  limit : Option Nat := none
deriving DecidableEq

/-- handleSearchSubmit of the SearchBar components (src/unnamed/part_007
lines 46-54 and src/unnamed/part_008 lines 38-46, identical logic): spread
the current filters, set `q` to the entered query (or undefined when it is
empty, via `searchQuery || undefined`), and clear `fromHours` and
`dateRange`. -/
def handleSearchSubmit (filters : InsightFilters) (searchQuery : String) : InsightFilters :=
  { filters with
    q := if searchQuery = ("") then none else some searchQuery,
    fromHours := none,
    dateRange := none }

/-- Concrete strings used by the claim instances below. -/
def c1exContent : String := "OpenAI releases Codex"

def c1exGlobals : List String := [("codex"), ("claude")]

def c3aContent : String := "Amp is an amazing AI coding assistant"

def c3aQuery : String := "amazing"

def c3aOut : String :=
  "Amp is an <strong class=\"bg-yellow-200 px-1 rounded\">amazing</strong> AI coding assistant"

def c3cContent : String := "classy amazing"

def c3cQuery : String := "amazing class"

def c3wText : String := "vampire bootcamp"

def c3wQuery : String := "amp"

def c4content : String := "vampire bootcamp"

def c5text : String := "Ab. Cdefghijk"

def c5out : String := "Ab. Cdefgh..."

def c5wText : String := "Abcdefgh. Jklmno"

def c6text : String := "abcdefghijk"

def c2candA : Candidate := { source := ("hackernews"), link := ("https://a.example/1"), title := ("A") }

def c2candB : Candidate := { source := ("hackernews"), link := ("https://a.example/2"), title := ("B") }

def c2feed : List Candidate := [c2candA, c2candB, c2candA]

def c10filters : InsightFilters :=
  { sources := some [("hackernews")],
    mentioned_tools := some [("Amp")],
    matched_keywords := some [("amp")],
    dateRange := some ((("2025-01-01"), ("2025-02-01"))),
    fromHours := some 24,
    tags := some [("ai")] }

/-! Helper lemmas shared by the claim theorems. -/

theorem hasKey_eq_true_iff (store : List Candidate) (k : String × String) :
    hasKey store k = true ↔ ∃ i ∈ store, keyOf i = k := by
  simp [hasKey, List.any_eq_true]

theorem hasKey_ingestEntry_of (store : List Candidate) (c : Candidate) (k : String × String)
    (h : hasKey store k = true) : hasKey (ingestEntry store c) k = true := by
  unfold ingestEntry
  split
  · simp only [hasKey, List.any_append] at *
    simp [h]
  · exact h

theorem hasKey_keyOf_ingestEntry (store : List Candidate) (c : Candidate) :
    hasKey (ingestEntry store c) (keyOf c) = true := by
  unfold ingestEntry
  split
  case isTrue h =>
    simp only [hasKey, List.any_append]
    simp [List.any_cons]
  case isFalse h =>
    simp only [shouldInsert, Bool.not_eq_true'] at h
    simpa using h

theorem hasKey_ingestFeed_of (entries : List Candidate) :
    ∀ (store : List Candidate) (k : String × String), hasKey store k = true →
      hasKey (ingestFeed store entries) k = true := by
  induction entries with
  | nil => intro store k h; simpa [ingestFeed] using h
  | cons a as ih =>
    intro store k h
    simp only [ingestFeed, List.foldl_cons] at *
    exact ih (ingestEntry store a) k (hasKey_ingestEntry_of store a k h)

theorem hasKey_of_mem_feed (entries : List Candidate) :
    ∀ (store : List Candidate) (e : Candidate), e ∈ entries →
      hasKey (ingestFeed store entries) (keyOf e) = true := by
  induction entries with
  | nil => intro store e h; simp at h
  | cons a as ih =>
    intro store e h
    simp only [ingestFeed, List.foldl_cons]
    rcases List.mem_cons.mp h with h | h
    · subst h
      exact hasKey_ingestFeed_of as (ingestEntry store e) (keyOf e)
        (hasKey_keyOf_ingestEntry store e)
    · exact ih (ingestEntry store a) e h

theorem ingestFeed_of_all_present (entries : List Candidate) :
    ∀ (store : List Candidate), (∀ e ∈ entries, hasKey store (keyOf e) = true) →
      ingestFeed store entries = store := by
  induction entries with
  | nil => intro store _; simp [ingestFeed]
  | cons a as ih =>
    intro store h
    have ha : ingestEntry store a = store := by
      unfold ingestEntry
      have : shouldInsert store a = false := by
        simp [shouldInsert, h a (List.mem_cons_self a as)]
      simp [this]
    simp only [ingestFeed, List.foldl_cons, ha]
    exact ih store (fun e he => h e (List.mem_cons_of_mem a he))

theorem nodup_keys_ingestEntry (store : List Candidate) (c : Candidate)
    (h : (store.map keyOf).Nodup) : ((ingestEntry store c).map keyOf).Nodup := by
  unfold ingestEntry
  split
  case isTrue hins =>
    have habs : hasKey store (keyOf c) = false := by
      simpa [shouldInsert, Bool.not_eq_true'] using hins
    have hnotmem : keyOf c ∉ store.map keyOf := by
      intro hmem
      rcases List.mem_map.mp hmem with ⟨i, hi, hk⟩
      have : hasKey store (keyOf c) = true := (hasKey_eq_true_iff store (keyOf c)).mpr ⟨i, hi, hk⟩
      simp [this] at habs
    simp only [List.map_append, List.map_cons, List.map_nil]
    simp [List.nodup_append, h, hnotmem]
  case isFalse hins => exact h

theorem nodup_keys_ingestFeed (entries : List Candidate) :
    ∀ (store : List Candidate), (store.map keyOf).Nodup →
      ((ingestFeed store entries).map keyOf).Nodup := by
  induction entries with
  | nil => intro store h; simpa [ingestFeed] using h
  | cons a as ih =>
    intro store h
    simp only [ingestFeed, List.foldl_cons]
    exact ih (ingestEntry store a) (nodup_keys_ingestEntry store a h)

/-- C1: for every raw entry, relevance holds iff at least one keyword of the
union of the per-source and global keyword sets occurs as a case-insensitive
substring of the concatenation of title and content, the matched-keyword set
is exactly the set of keywords that so occur, and the concrete example of
the claim evaluates as stated. -/
theorem relevance_scorer_correct (title content : String) (srcKw gKw : List String) :
    ((score title content srcKw gKw).relevant = true ↔
      ∃ kw ∈ srcKw ++ gKw, occursCI kw (title ++ content) = true)
    ∧ (∀ kw : String, kw ∈ (score title content srcKw gKw).matchedKeywords ↔
        (kw ∈ srcKw ++ gKw ∧ occursCI kw (title ++ content) = true))
    ∧ (score ("") c1exContent [] c1exGlobals).matchedKeywords = [("codex")]
    ∧ (score ("") c1exContent [] c1exGlobals).relevant = true := by
  refine ⟨?_, ?_, by decide, by decide⟩
  · simp [score, List.any_eq_true, or_and_right, exists_or]
  · intro kw
    simp [score, List.mem_filter, or_and_right]

/-- C4: mentioned-tool detection is word-boundary based and yields no tool
for the content "vampire bootcamp" against the curated tool list, even
though the substring-based Relevance Scorer accepts the same content via the
keyword "amp". -/
theorem mentioned_tools_word_boundary :
    mentionedTools c4content curatedTools = []
    ∧ (score ("") c4content [] [("amp")]).relevant = true := by
  decide

/-- C8: the loaded source configuration does not have pairwise-distinct
names; the entries at indices 1 and 19 are both named
reddit_machinelearning (with enabled false and true respectively). -/
theorem sources_config_duplicate_name :
    ¬ ((sourcesConfig.map Prod.fst).Nodup)
    ∧ sourcesConfig[1]? = some ((("reddit_machinelearning"), false))
    ∧ sourcesConfig[19]? = some ((("reddit_machinelearning"), true)) := by
  refine ⟨?_, by decide, by decide⟩
  intro h
  have hcount : (sourcesConfig.map Prod.fst).count ("reddit_machinelearning") = 2 := by decide
  have hle := List.nodup_iff_count_le_one.mp h ("reddit_machinelearning")
  omega

/-- C10: submitting a non-empty free-text search sets q to the entered
query, clears fromHours and dateRange, and leaves the sources,
mentioned-tool, matched-keyword and tag filters unchanged. -/
theorem search_submit_clears_time_filters (filters : InsightFilters) (searchQuery : String)
    (h : searchQuery ≠ ("")) :
    (handleSearchSubmit filters searchQuery).q = some searchQuery
    ∧ (handleSearchSubmit filters searchQuery).fromHours = none
    ∧ (handleSearchSubmit filters searchQuery).dateRange = none
    ∧ (handleSearchSubmit filters searchQuery).sources = filters.sources
    ∧ (handleSearchSubmit filters searchQuery).mentioned_tools = filters.mentioned_tools
    ∧ (handleSearchSubmit filters searchQuery).matched_keywords = filters.matched_keywords
    ∧ (handleSearchSubmit filters searchQuery).tags = filters.tags := by
  simp [handleSearchSubmit, h]

/-- Witness for C10 at a concrete filter state and query. -/
theorem search_submit_clears_time_filters_witness :
    (handleSearchSubmit c10filters ("amp agents")).q = some ("amp agents")
    ∧ (handleSearchSubmit c10filters ("amp agents")).fromHours = none
    ∧ (handleSearchSubmit c10filters ("amp agents")).dateRange = none
    ∧ (handleSearchSubmit c10filters ("amp agents")).sources = c10filters.sources
    ∧ (handleSearchSubmit c10filters ("amp agents")).mentioned_tools = c10filters.mentioned_tools
    ∧ (handleSearchSubmit c10filters ("amp agents")).matched_keywords = c10filters.matched_keywords
    ∧ (handleSearchSubmit c10filters ("amp agents")).tags = c10filters.tags :=
  search_submit_clears_time_filters c10filters ("amp agents") (by decide)

/-- C2: ingestion is idempotent per canonical link: running the same raw
feed through a second successive cycle changes nothing, and a store whose
`(source, canonical_link)` keys are pairwise distinct keeps that uniqueness
(at most one stored record per key) after ingesting any feed. -/
theorem ingest_idempotent (store entries : List Candidate)
    (h : (store.map keyOf).Nodup) :
    ingestFeed (ingestFeed store entries) entries = ingestFeed store entries
    ∧ ((ingestFeed store entries).map keyOf).Nodup := by
  constructor
  · exact ingestFeed_of_all_present entries (ingestFeed store entries)
      (fun e he => hasKey_of_mem_feed entries store e he)
  · exact nodup_keys_ingestFeed entries store h

/-- Witness for C2: a concrete feed that repeats one story is deduplicated
and a second ingestion of the full feed is a no-op. -/
theorem ingest_idempotent_witness :
    (([] : List Candidate).map keyOf).Nodup
    ∧ (ingestFeed (ingestFeed ([] : List Candidate) c2feed) c2feed
        = ingestFeed ([] : List Candidate) c2feed
      ∧ ((ingestFeed ([] : List Candidate) c2feed).map keyOf).Nodup) :=
  ⟨by decide, ingest_idempotent ([] : List Candidate) c2feed (by decide)⟩

theorem wsChunksAux_nonws : ∀ (s acc : List Char), (∀ c ∈ acc, c.isWhitespace = false) →
    ∀ t ∈ wsChunksAux acc s, ∀ c ∈ t, c.isWhitespace = false := by
  intro s
  induction s with
  | nil =>
    intro acc hacc t ht c hc
    simp only [wsChunksAux] at ht
    split at ht
    · simp at ht
    · simp only [List.mem_singleton] at ht
      subst ht
      exact hacc c (List.mem_reverse.mp hc)
  | cons a as ih =>
    intro acc hacc t ht c hc
    simp only [wsChunksAux] at ht
    split at ht
    case isTrue hws =>
      split at ht
      · exact ih [] (by simp) t ht c hc
      · rcases List.mem_cons.mp ht with ht | ht
        · subst ht
          exact hacc c (List.mem_reverse.mp hc)
        · exact ih [] (by simp) t ht c hc
    case isFalse hws =>
      refine ih (a :: acc) ?_ t ht c hc
      intro d hd
      rcases List.mem_cons.mp hd with hd | hd
      · subst hd
        simpa using hws
      · exact hacc d hd

/-- C7: every token retained by the highlighter's query tokenization is a
whitespace-free word of the lowercased query of length strictly greater than
two, so one- and two-character query tokens are discarded. -/
theorem query_tokens_long (query : String) (kw : List Char)
    (h : kw ∈ queryKeywords query) :
    2 < kw.length ∧ ∀ c ∈ kw, c.isWhitespace = false := by
  unfold queryKeywords at h
  have hm := List.mem_filter.mp h
  refine ⟨by simpa using hm.2, ?_⟩
  exact wsChunksAux_nonws ((lowerStr query).data) [] (by simp) kw hm.1

/-- Witness for C7: the token "foo" of the query "foo to" is retained and
has length three. -/
theorem query_tokens_long_witness : 2 < (("foo").data).length :=
  (query_tokens_long ("foo to") (("foo").data) (by decide)).1

theorem filter_keywords_nil (query : String)
    (h : ∀ t ∈ wsChunks (lowerStr query).data, t.length ≤ 2) :
    queryKeywords query = [] := by
  unfold queryKeywords
  rw [List.filter_eq_nil_iff]
  intro t ht
  simp only [decide_eq_true_eq, not_lt]
  exact h t ht

/-- C9: when every whitespace-separated token of the (lowercased) query has
length at most two, highlighting returns the text completely unchanged. -/
theorem highlight_short_tokens_id (text query : String) (_hq : query ≠ (""))
    (h : ∀ t ∈ wsChunks (lowerStr query).data, t.length ≤ 2) :
    highlightText text query = text := by
  unfold highlightText
  split
  · rfl
  · rw [filter_keywords_nil query h]
    rfl

/-- Witness for C9: the query "a to" leaves "hello world" untouched. -/
theorem highlight_short_tokens_id_witness : highlightText ("hello world") ("a to") = ("hello world") :=
  highlight_short_tokens_id ("hello world") ("a to") (by decide) (by decide)

theorem highlightLoop_of_noMatch (kw : List Char) :
    ∀ (s : List Char) (fuel : Nat) (prev : Option Char), s.length ≤ fuel →
      wordOccursAux kw prev s = false → highlightLoop kw fuel prev s = s := by
  intro s
  induction s with
  | nil =>
    intro fuel prev _ _
    cases fuel <;> simp [highlightLoop]
  | cons c cs ih =>
    intro fuel prev hf hw
    cases fuel with
    | zero =>
      simp only [List.length_cons] at hf
      omega
    | succ f =>
      simp only [wordOccursAux, Bool.or_eq_false_iff] at hw
      simp only [highlightLoop, hw.1, if_false, Bool.false_eq_true]
      rw [ih f (some c) (by simpa using Nat.lt_succ_iff.mp (Nat.lt_of_lt_of_le (Nat.lt_succ_self _) hf)) hw.2]

/-- C3 (amended): each retained token is matched case-insensitively with
word-boundary matching against the text produced by the replacements of the
earlier tokens (the original content for the first token); hence for a query
with a single retained token, a token with no word-boundary occurrence in
the content (for example one occurring only inside a longer word) leaves the
content unchanged, and the direct-hit example of the claim produces a marked
span exactly around "amazing". -/
theorem highlight_word_boundary_single (text query : String) (kw : List Char)
    (hkw : queryKeywords query = [kw])
    (hnf : wordOccursAux kw none text.data = false) :
    highlightText text query = text ∧ highlightText c3aContent c3aQuery = c3aOut := by
  refine ⟨?_, by decide⟩
  unfold highlightText
  split
  · rfl
  · rw [hkw]
    simp only [List.foldl_cons, List.foldl_nil]
    unfold highlightOne
    rw [highlightLoop_of_noMatch kw text.data text.data.length none (le_refl _) hnf]

/-- Witness for C3 (amended): the single-token query "amp" leaves "vampire
bootcamp" unchanged, and the "amazing" example holds. -/
theorem highlight_word_boundary_single_witness :
    highlightText c3wText c3wQuery = c3wText ∧ highlightText c3aContent c3aQuery = c3aOut :=
  highlight_word_boundary_single c3wText c3wQuery (("amp").data) (by decide) (by decide)

/-- C3 counterexample: in the content "classy amazing" the token "class" of
the query "amazing class" has no word-boundary occurrence (it occurs only
inside the longer word "classy"), yet the produced output wraps an
occurrence of "class" in the highlight markers, because the second token is
matched against the markup inserted for the first token. -/
theorem highlight_word_boundary_counterexample :
    wordOccurs ("class") c3cContent = false
    ∧ hasSub (markOpen ++ ("class").data ++ markClose) (highlightText c3cContent c3cQuery).data
        = true := by
  decide

theorem data_mk (l : List Char) : (String.mk l).data = l := rfl

/-- C6 (amended): the truncation output never exceeds the configured budget
plus the three characters of the appended ellipsis marker; only the ellipsis
can push the output past the budget. -/
theorem truncate_length_le (text : String) (n : Nat) :
    (truncateAtSentence text n).data.length ≤ n + 3 := by
  unfold truncateAtSentence
  split
  case isTrue h => omega
  case isFalse h =>
    split
    · rw [data_mk]
      simp only [List.length_take]
      omega
    · rw [data_mk]
      simp only [List.length_append, List.length_take, List.length_cons, List.length_nil]
      omega

/-- C6 counterexample: an 11-character content with an 8-character budget
and no sentence boundary produces an output of 11 characters, which exceeds
the budget. -/
theorem truncate_length_counterexample :
    (truncateAtSentence c6text 8).data.length = 11
    ∧ ¬ ((truncateAtSentence c6text 8).data.length ≤ 8) := by
  decide

theorem lastMatchBelow_some_spec (s pat : List Char) :
    ∀ (n i : Nat), lastMatchBelow s pat n = some i →
      pat.isPrefixOf (s.drop i) = true ∧ i < n := by
  intro n
  induction n with
  | zero => intro i h; simp [lastMatchBelow] at h
  | succ m ih =>
    intro i h
    rw [lastMatchBelow] at h
    split at h
    case isTrue hp =>
      have hmi : m = i := by injection h
      subst hmi
      exact ⟨hp, Nat.lt_succ_self m⟩
    case isFalse hp =>
      have hrec := ih i h
      exact ⟨hrec.1, Nat.lt_succ_of_lt hrec.2⟩

theorem lastMatchBelow_eq_of (s pat : List Char) :
    ∀ (n i : Nat), i < n → pat.isPrefixOf (s.drop i) = true →
      (∀ j, i < j → j < n → pat.isPrefixOf (s.drop j) = false) →
      lastMatchBelow s pat n = some i := by
  intro n
  induction n with
  | zero => intro i hi _ _; omega
  | succ m ih =>
    intro i hi hp hup
    rw [lastMatchBelow]
    by_cases him : i = m
    · subst him
      rw [if_pos hp]
    · have hilt : i < m := by omega
      have hm : pat.isPrefixOf (s.drop m) = false := hup m hilt (Nat.lt_succ_self m)
      rw [if_neg (by simp [hm])]
      exact ih i hilt hp (fun j h1 h2 => hup j h1 (Nat.lt_succ_of_lt h2))

theorem boundAt_lt_length (s : List Char) (i : Nat) (h : boundAt s i = true) :
    i < s.length := by
  by_contra hge
  push_neg at hge
  have hd : s.drop i = [] := List.drop_eq_nil_of_le hge
  unfold boundAt at h
  rw [hd] at h
  exact absurd h (by decide)

theorem boundAt_decomp (s : List Char) (j : Nat) (h : boundAt s j = false) :
    ((". ").data).isPrefixOf (s.drop j) = false
    ∧ (("? ").data).isPrefixOf (s.drop j) = false
    ∧ (("! ").data).isPrefixOf (s.drop j) = false := by
  unfold boundAt at h
  simp only [Bool.or_eq_false_iff] at h
  exact ⟨h.1.1, h.1.2, h.2⟩

theorem boundAt_intro1 (s : List Char) (j : Nat)
    (h : ((". ").data).isPrefixOf (s.drop j) = true) : boundAt s j = true := by
  unfold boundAt
  simp [h]

theorem boundAt_intro2 (s : List Char) (j : Nat)
    (h : (("? ").data).isPrefixOf (s.drop j) = true) : boundAt s j = true := by
  unfold boundAt
  simp [h]

theorem boundAt_intro3 (s : List Char) (j : Nat)
    (h : (("! ").data).isPrefixOf (s.drop j) = true) : boundAt s j = true := by
  unfold boundAt
  simp [h]

theorem optIdx_le_of_no_above (s pat : List Char) (i : Nat)
    (hab : ∀ j, i < j → j < s.length → pat.isPrefixOf (s.drop j) = false) :
    optToIdx (jsLastIndexOf s pat) ≤ (i : Int) := by
  cases hjs : jsLastIndexOf s pat with
  | none =>
    simp only [optToIdx]
    omega
  | some k =>
    unfold jsLastIndexOf at hjs
    have hk := lastMatchBelow_some_spec s pat s.length k hjs
    simp only [optToIdx]
    by_contra hgt
    push_neg at hgt
    have hik : i < k := by exact_mod_cast hgt
    have hfk := hab k hik hk.2
    exact absurd hk.1 (by simp [hfk])

theorem optIdx_eq_of (s pat : List Char) (i : Nat)
    (hi : i < s.length) (hp : pat.isPrefixOf (s.drop i) = true)
    (hab : ∀ j, i < j → j < s.length → pat.isPrefixOf (s.drop j) = false) :
    optToIdx (jsLastIndexOf s pat) = (i : Int) := by
  unfold jsLastIndexOf
  rw [lastMatchBelow_eq_of s pat s.length i hi hp hab]
  rfl

theorem lastPunct_eq_of (s : List Char) (i : Nat)
    (hb : boundAt s i = true)
    (hup : ∀ j, i < j → j < s.length → boundAt s j = false) :
    lastPunct s = (i : Int) := by
  have hi : i < s.length := boundAt_lt_length s i hb
  have hd := fun j h1 h2 => (boundAt_decomp s j (hup j h1 h2)).1
  have hq := fun j h1 h2 => (boundAt_decomp s j (hup j h1 h2)).2.1
  have he := fun j h1 h2 => (boundAt_decomp s j (hup j h1 h2)).2.2
  have hle1 := optIdx_le_of_no_above s ((". ").data) i hd
  have hle2 := optIdx_le_of_no_above s (("? ").data) i hq
  have hle3 := optIdx_le_of_no_above s (("! ").data) i he
  have hb3 : ((". ").data).isPrefixOf (s.drop i) = true
      ∨ (("? ").data).isPrefixOf (s.drop i) = true
      ∨ (("! ").data).isPrefixOf (s.drop i) = true := by
    unfold boundAt at hb
    simpa [Bool.or_eq_true, or_assoc] using hb
  unfold lastPunct
  refine le_antisymm (max_le (max_le hle1 hle2) hle3) ?_
  rcases hb3 with h1 | h1 | h1
  · rw [← optIdx_eq_of s ((". ").data) i hi h1 hd]
    exact le_trans (le_max_left _ _) (le_max_left _ _)
  · rw [← optIdx_eq_of s (("? ").data) i hi h1 hq]
    exact le_trans (le_max_right _ _) (le_max_left _ _)
  · rw [← optIdx_eq_of s (("! ").data) i hi h1 he]
    exact le_max_right _ _

theorem lastPunct_small_of (s : List Char) (n : Nat) (hsl : s.length = n)
    (hall : ∀ j, j < n → boundAt s j = true → 10 * (j : Int) ≤ 7 * (n : Int)) :
    10 * lastPunct s ≤ 7 * (n : Int) := by
  have key : ∀ pat : List Char,
      (∀ j, j < s.length → pat.isPrefixOf (s.drop j) = true → boundAt s j = true) →
      10 * optToIdx (jsLastIndexOf s pat) ≤ 7 * (n : Int) := by
    intro pat hpat
    cases hjs : jsLastIndexOf s pat with
    | none =>
      simp only [optToIdx]
      omega
    | some k =>
      unfold jsLastIndexOf at hjs
      have hk := lastMatchBelow_some_spec s pat s.length k hjs
      simp only [optToIdx]
      exact hall k (by omega) (hpat k hk.2 hk.1)
  have k1 := key ((". ").data) (fun j _ hp => boundAt_intro1 s j hp)
  have k2 := key (("? ").data) (fun j _ hp => boundAt_intro2 s j hp)
  have k3 := key (("! ").data) (fun j _ hp => boundAt_intro3 s j hp)
  unfold lastPunct
  rcases max_choice (max (optToIdx (jsLastIndexOf s ((". ").data)))
      (optToIdx (jsLastIndexOf s (("? ").data)))) (optToIdx (jsLastIndexOf s (("! ").data))) with
    h | h
  · rw [h]
    rcases max_choice (optToIdx (jsLastIndexOf s ((". ").data)))
        (optToIdx (jsLastIndexOf s (("? ").data))) with h2 | h2 <;> rw [h2]
    · exact k1
    · exact k2
  · rw [h]
    exact k3

/-- C5 (amended): for content longer than the budget, truncation cuts just
after the last sentence boundary of the first `budget` characters exactly
when that boundary's index exceeds 70 percent of the budget (strictly more
than 0.7 times the budget); otherwise — in particular whenever every
boundary lies at or below 70 percent of the budget, or there is none — the
first `budget` characters are kept and the three-character ellipsis marker
is appended. -/
theorem truncate_sentence_amended (text : String) (n : Nat) (hlen : n < text.data.length) :
    (∀ i : Nat, boundAt (text.data.take n) i = true →
        (∀ j : Nat, j < n → i < j → boundAt (text.data.take n) j = false) →
        7 * n < 10 * i →
        truncateAtSentence text n = String.mk ((text.data.take n).take (i + 1)))
    ∧ ((∀ j : Nat, j < n → boundAt (text.data.take n) j = true → 10 * j ≤ 7 * n) →
        truncateAtSentence text n = String.mk (text.data.take n ++ ("...").data)) := by
  have hts : (text.data.take n).length = n := by
    rw [List.length_take]
    omega
  constructor
  · intro i hb hup hcond
    have hlp : lastPunct (text.data.take n) = (i : Int) := by
      apply lastPunct_eq_of _ i hb
      intro j h1 h2
      exact hup j (by omega) h1
    unfold truncateAtSentence
    rw [if_neg (by omega), if_pos (by rw [hlp]; exact_mod_cast hcond)]
    rw [hlp]
    norm_num
  · intro hall
    have h10 : 10 * lastPunct (text.data.take n) ≤ 7 * (n : Int) := by
      apply lastPunct_small_of _ n hts
      intro j hj hbj
      exact_mod_cast hall j hj hbj
    unfold truncateAtSentence
    rw [if_neg (by omega), if_neg (by omega)]

/-- Witness for C5 (amended): with budget 10, the content
"Abcdefgh. Jklmno" has its last boundary at index 8, which exceeds 70
percent of the budget, so the output is cut just after the period. -/
theorem truncate_sentence_amended_witness :
    truncateAtSentence c5wText 10 = String.mk ((c5wText.data.take 10).take 9) :=
  (truncate_sentence_amended c5wText 10 (by decide)).1 8 (by decide) (by decide) (by decide)

/-- C5 counterexample: with budget 10, the content "Ab. Cdefghijk" has a
sentence boundary at index 2, within 70 percent of the budget, yet the code
hard-truncates and appends the ellipsis instead of cutting at the boundary. -/
theorem truncate_sentence_counterexample :
    truncateAtSentence c5text 10 = c5out
    ∧ boundAt (c5text.data.take 10) 2 = true
    ∧ 10 * 2 ≤ 7 * 10
    ∧ c5out ≠ ("Ab.") := by
  decide
